import Mathlib

/-!
# Verification of the Fulcrum synchronization controller (Controller.h)

A shallow embedding of the controller described by `src/Controller.h` and its
specification: the parallel work-splitting policy for header downloads, the
synchronization state machine with its observable signals
(`synchronizing`, `upToDate`, `synchFailure`), the task registry
(`newTask`, `rmTask`, `isTaskDeleted`), and the task lifecycle signals
(`started`, `progress`, `success`/`errored`, `finished`).

Only the class declarations are present in the repository source
(`Controller.h`); the member function bodies live in `Controller.cpp`, which is
not part of the source tree we were given.  Definitions for those members are
therefore modelled from the specification text and are marked
`Modelled from the spec:` in their doc comments.  The constant `polltime_ms`
is taken directly from the header.
-/

namespace Fulcrum

/-- From `Controller.h` line 28: `int polltime_ms = 5 * 1000;` — the default
amount of time for polling bitcoind for new headers, in milliseconds. -/
def polltime_ms : Nat := 5 * 1000

/-! ## Work-splitting policy (§4.4, `add_DLHeaderTask` over a round) -/

/-- Modelled from the spec: the body of the round setup driving
`Controller::add_DLHeaderTask` is in `Controller.cpp`, which is absent from
`src/`.  §4.4: "Given a missing height range [localHeight, remoteHeight) and a
configured task count N: partition the range into N contiguous,
non-overlapping, gap-free sub-ranges of near-equal size (remainder distributed
to the earliest sub-ranges so every unit of work is covered exactly once), and
create one download task per non-empty sub-range."  `splitRange L R N` returns
the list of half-open sub-ranges, earliest first; each range receives
`⌈remaining/tasksLeft⌉` heights, which realises base size `(R-L)/N` with the
remainder `(R-L)%N` given to the earliest ranges, and empty sub-ranges produce
no task. -/
def splitRange : Nat → Nat → Nat → List (Nat × Nat)
  | _, _, 0 => []
  | L, R, n+1 =>
    if L < R then
      let total := R - L
      let sz := total / (n+1) + (if total % (n+1) = 0 then 0 else 1)
      (L, L + sz) :: splitRange (L + sz) R n
    else []

/-- The sizes demanded by the spec's words: `min N total` tasks, the `i`-th
(0-based) of size `total/N`, plus one for the first `total % N` of them. -/
def specSizes (t N : Nat) : List Nat :=
  (List.range (min N t)).map fun i => t / N + (if i < t % N then 1 else 0)

/-- The multiset-with-order of heights covered by a list of half-open ranges. -/
def covered (rs : List (Nat × Nat)) : List Nat :=
  rs.foldr (fun p acc => List.range' p.1 (p.2 - p.1) ++ acc) []

theorem covered_nil : covered [] = [] := rfl

theorem covered_cons (p : Nat × Nat) (rs : List (Nat × Nat)) :
    covered (p :: rs) = List.range' p.1 (p.2 - p.1) ++ covered rs := rfl

/-- The per-step chunk size of `splitRange`. -/
def chunkSz (t n : Nat) : Nat := t / (n+1) + (if t % (n+1) = 0 then 0 else 1)

theorem splitRange_succ (L R n : Nat) :
    splitRange L R (n+1) =
      if L < R then
        (L, L + chunkSz (R - L) n) :: splitRange (L + chunkSz (R - L) n) R n
      else [] := rfl

theorem one_le_chunkSz (t n : Nat) (h : 1 ≤ t) : 1 ≤ chunkSz t n := by
  unfold chunkSz
  by_cases hr : t % (n+1) = 0
  · have hdvd : (n+1) ∣ t := Nat.dvd_of_mod_eq_zero hr
    have hle : n+1 ≤ t := Nat.le_of_dvd h hdvd
    have : 1 ≤ t / (n+1) := (Nat.one_le_div_iff (Nat.succ_pos n)).2 hle
    simp [hr]
    omega
  · simp [hr]

theorem chunkSz_le (t n : Nat) : chunkSz t n ≤ t := by
  unfold chunkSz
  by_cases hr : t % (n+1) = 0
  · simpa [hr] using Nat.div_le_self t (n+1)
  · have ht : 0 < t := by
      rcases Nat.eq_zero_or_pos t with h0 | h0
      · subst h0; simp at hr
      · exact h0
    have hn : 1 ≤ n := by
      rcases Nat.eq_zero_or_pos n with h0 | h0
      · subst h0; simp [Nat.mod_one] at hr
      · exact h0
    have : t / (n+1) < t := Nat.div_lt_self ht (by omega)
    simp [hr]
    omega

theorem chunkSz_le_sub (t n : Nat) (h : n + 1 ≤ t) : chunkSz t n ≤ t - n := by
  unfold chunkSz
  have hq : 1 ≤ t / (n+1) := (Nat.one_le_div_iff (Nat.succ_pos n)).2 h
  have hdm : (n+1) * (t / (n+1)) + t % (n+1) = t := Nat.div_add_mod t (n+1)
  have hmul : n * 1 ≤ n * (t / (n+1)) := Nat.mul_le_mul_left n hq
  have hexp : (n+1) * (t / (n+1)) = n * (t / (n+1)) + t / (n+1) := by ring
  by_cases hr : t % (n+1) = 0 <;> simp [hr] <;> omega

/-- Coverage: the heights covered by the split of `[L,R)` into `n+1` parts are
exactly `L, L+1, …, R-1`, in order, each exactly once. -/
theorem splitRange_covered (n : Nat) :
    ∀ L R : Nat, covered (splitRange L R (n+1)) = List.range' L (R - L) := by
  induction n with
  | zero =>
    intro L R
    by_cases h : L < R
    · simp [splitRange, h, covered_cons, covered_nil, chunkSz, Nat.mod_one]
    · have : R - L = 0 := by omega
      simp [splitRange, h, this, covered_nil]
  | succ n ih =>
    intro L R
    by_cases h : L < R
    · rw [splitRange_succ]
      simp only [h, if_true, covered_cons]
      rw [ih (L + chunkSz (R - L) (n+1)) R]
      have h1 : 1 ≤ R - L := by omega
      have hle : chunkSz (R - L) (n+1) ≤ R - L := chunkSz_le (R - L) (n+1)
      have hadd : L + chunkSz (R - L) (n+1) - L = chunkSz (R - L) (n+1) := by omega
      rw [hadd]
      have := List.range'_append L (chunkSz (R - L) (n+1))
        (R - (L + chunkSz (R - L) (n+1))) 1
      simp only [one_mul] at this
      rw [this]
      congr 1
      omega
    · have : R - L = 0 := by omega
      rw [splitRange_succ]
      simp [h, this, covered_nil]

/-- Task count: the split produces `min N (R-L)` sub-ranges — one per unit of
work when there is less work than parallelism, never more. -/
theorem splitRange_length (n : Nat) :
    ∀ L R : Nat, (splitRange L R n).length = min n (R - L) := by
  induction n with
  | zero => intro L R; simp [splitRange]
  | succ n ih =>
    intro L R
    by_cases h : L < R
    · rw [splitRange_succ]
      simp only [h, if_true, List.length_cons]
      rw [ih (L + chunkSz (R - L) n) R]
      have h1 : 1 ≤ R - L := by omega
      have hle : chunkSz (R - L) n ≤ R - L := chunkSz_le (R - L) n
      have hge : 1 ≤ chunkSz (R - L) n := one_le_chunkSz (R - L) n h1
      have hsub : n + 1 ≤ R - L → chunkSz (R - L) n ≤ (R - L) - n :=
        chunkSz_le_sub (R - L) n
      have hsmall : R - L ≤ n → chunkSz (R - L) n = 1 := by
        intro hsm
        have hq : (R - L) / (n+1) = 0 := Nat.div_eq_of_lt (by omega)
        have hr : (R - L) % (n+1) = R - L := Nat.mod_eq_of_lt (by omega)
        unfold chunkSz
        rw [hq, hr]
        simp
        omega
      have harg : R - (L + chunkSz (R - L) n) = (R - L) - chunkSz (R - L) n := by
        omega
      rw [harg]
      by_cases hc : n + 1 ≤ R - L
      · have := hsub hc; omega
      · have := hsmall (by omega); omega
    · have : R - L = 0 := by omega
      rw [splitRange_succ]
      simp [h, this]

theorem specSizes_small (t m : Nat) (h : t ≤ m) : specSizes t m = List.replicate t 1 := by
  rcases Nat.eq_zero_or_pos t with ht0 | ht0
  · subst ht0; simp [specSizes]
  rcases Nat.lt_or_ge t m with hlt | hge
  · unfold specSizes
    have hq : t / m = 0 := Nat.div_eq_of_lt hlt
    have hr : t % m = t := Nat.mod_eq_of_lt hlt
    have hmin : min m t = t := by omega
    rw [hmin, hq, hr]
    have : ∀ i ∈ List.range t, (fun i => 0 + if i < t then 1 else 0) i = (fun _ => 1) i := by
      intro i hi
      have : i < t := List.mem_range.1 hi
      simp [this]
    rw [List.map_congr_left this, List.map_const', List.length_range]
  · have hm : t = m := by omega
    subst hm
    unfold specSizes
    have hq : t / t = 1 := Nat.div_self ht0
    have hr : t % t = 0 := Nat.mod_self t
    have hmin : min t t = t := by omega
    rw [hmin, hq, hr]
    have : ∀ i ∈ List.range t, (fun i => 1 + if i < 0 then 1 else 0) i = (fun _ => 1) i := by
      intro i _; simp
    rw [List.map_congr_left this, List.map_const', List.length_range]

theorem specSizes_cons (n t : Nat) (ht : 1 ≤ t) :
    specSizes t (n+1) = chunkSz t n :: specSizes (t - chunkSz t n) n := by
  by_cases hc : t ≤ n
  · obtain ⟨s, rfl⟩ : ∃ s, t = s + 1 := ⟨t - 1, by omega⟩
    have h1 : chunkSz (s+1) n = 1 := by
      unfold chunkSz
      rw [Nat.div_eq_of_lt (by omega), Nat.mod_eq_of_lt (by omega)]
      simp
    rw [h1, specSizes_small (s+1) (n+1) (by omega), specSizes_small (s+1-1) n (by omega)]
    simp [List.replicate_succ]
  · push_neg at hc
    have hn1 : 0 < n + 1 := Nat.succ_pos n
    have hdm : (n+1) * (t / (n+1)) + t % (n+1) = t := Nat.div_add_mod t (n+1)
    have hrlt : t % (n+1) < n + 1 := Nat.mod_lt t hn1
    have hq1 : 1 ≤ t / (n+1) := (Nat.one_le_div_iff hn1).2 (by omega)
    have hA : (n+1) * (t / (n+1)) = n * (t / (n+1)) + t / (n+1) := by ring
    have hmin : min (n+1) t = n + 1 := by omega
    by_cases hr0 : t % (n+1) = 0
    · rcases Nat.eq_zero_or_pos n with hn0 | hn0
      · subst hn0
        simp [specSizes, chunkSz, Nat.mod_one, Nat.div_one,
              show min 1 t = 1 by omega, List.range_succ]
      · have hck : chunkSz t n = t / (n+1) := by unfold chunkSz; simp [hr0]
        have ht' : t - t / (n+1) = n * (t / (n+1)) := by omega
        have hdiv : n * (t / (n+1)) / n = t / (n+1) := Nat.mul_div_cancel_left _ hn0
        have hmod : n * (t / (n+1)) % n = 0 := Nat.mul_mod_right n _
        have hmin' : min n (n * (t / (n+1))) = n := by
          have : n * 1 ≤ n * (t / (n+1)) := Nat.mul_le_mul_left n hq1
          omega
        rw [hck, ht']
        unfold specSizes
        simp only [hmin, hmin', hdiv, hmod, hr0, List.range_succ_eq_map,
                   List.map_cons, List.map_map]
        simp [Function.comp_def, List.map_const', List.length_range]
    · have hn0 : 0 < n := by
        rcases Nat.eq_zero_or_pos n with h0 | h0
        · subst h0; simp [Nat.mod_one] at hr0
        · exact h0
      have hrpos : 0 < t % (n+1) := Nat.pos_of_ne_zero hr0
      have hck : chunkSz t n = t / (n+1) + 1 := by unfold chunkSz; simp [hr0]
      have ht' : t - (t / (n+1) + 1) = (t % (n+1) - 1) + n * (t / (n+1)) := by
        omega
      have hdiv : ((t % (n+1) - 1) + n * (t / (n+1))) / n = t / (n+1) := by
        rw [Nat.add_mul_div_left _ _ hn0, Nat.div_eq_of_lt (by omega)]
        omega
      have hmod : ((t % (n+1) - 1) + n * (t / (n+1))) % n = t % (n+1) - 1 := by
        rw [Nat.add_mul_mod_self_left, Nat.mod_eq_of_lt (by omega)]
      have hmin' : min n ((t % (n+1) - 1) + n * (t / (n+1))) = n := by
        have : n * 1 ≤ n * (t / (n+1)) := Nat.mul_le_mul_left n hq1
        omega
      rw [hck, ht']
      unfold specSizes
      simp only [hmin, hmin', hdiv, hmod, List.range_succ_eq_map,
                 List.map_cons, List.map_map]
      rw [if_pos hrpos]
      congr 1
      apply List.map_congr_left
      intro a _
      simp only [Function.comp]
      by_cases hx : Nat.succ a < t % (n+1)
      · rw [if_pos hx, if_pos (show a < t % (n+1) - 1 by omega)]
      · rw [if_neg hx, if_neg (show ¬ a < t % (n+1) - 1 by omega)]

/-- Near-equal sizes with the remainder on the earliest sub-ranges: the sizes
of the produced sub-ranges are exactly `specSizes (R-L) N`. -/
theorem splitRange_sizes (n : Nat) :
    ∀ L R : Nat, (splitRange L R n).map (fun p => p.2 - p.1) = specSizes (R - L) n := by
  induction n with
  | zero => intro L R; simp [splitRange, specSizes]
  | succ n ih =>
    intro L R
    by_cases h : L < R
    · rw [splitRange_succ]
      simp only [h, if_true, List.map_cons]
      rw [ih]
      rw [specSizes_cons n (R - L) (by omega)]
      have hle : chunkSz (R - L) n ≤ R - L := chunkSz_le (R - L) n
      congr 1
      · omega
      · congr 1; omega
    · rw [splitRange_succ]
      have h0 : R - L = 0 := by omega
      simp [h, h0, specSizes]

theorem splitRange_head (L R n : Nat) :
    ∀ p ∈ (splitRange L R n).head?, p.1 = L := by
  cases n with
  | zero => intro p hp; simp [splitRange] at hp
  | succ n =>
    intro p hp
    rw [splitRange_succ] at hp
    by_cases h : L < R
    · simp [h] at hp
      simp [← hp]
    · simp [h] at hp

/-- Contiguity: each sub-range ends exactly where the next begins. -/
theorem splitRange_chain (n : Nat) :
    ∀ L R : Nat, List.Chain' (fun p q : Nat × Nat => p.2 = q.1) (splitRange L R n) := by
  induction n with
  | zero => intro L R; simp [splitRange]
  | succ n ih =>
    intro L R
    by_cases h : L < R
    · rw [splitRange_succ]
      simp only [h, if_true]
      rw [List.chain'_cons']
      refine ⟨?_, ih _ _⟩
      intro q hq
      exact (splitRange_head (L + chunkSz (R - L) n) R n q hq).symm
    · rw [splitRange_succ]; simp [h]

/-- Every produced sub-range is non-empty (one task per non-empty sub-range). -/
theorem splitRange_pos (n : Nat) :
    ∀ L R : Nat, ∀ p ∈ splitRange L R n, p.1 < p.2 := by
  induction n with
  | zero => intro L R p hp; simp [splitRange] at hp
  | succ n ih =>
    intro L R p hp
    rw [splitRange_succ] at hp
    by_cases h : L < R
    · simp only [h, if_true, List.mem_cons] at hp
      rcases hp with rfl | hp
      · have := one_le_chunkSz (R - L) n (by omega)
        simp; omega
      · exact ih _ _ p hp
    · simp [h] at hp

/-! ## Task lifecycle (§4.1, `CtlTask` signals in `Controller.h` lines 103-108) -/

/-- The lifecycle signals a `CtlTask` can emit (`Controller.h` lines 103-108):
`started`, `finished`, `success`, `errored`, `progress`. -/
inductive TaskEv
  | started
  | progress (p : Nat)
  | success
  | errored
  | finished
deriving DecidableEq, Repr

/-- Internal phase of one task instance. -/
inductive TPhase
  | created
  | running
  | succeeded
  | erroredPh
  | finishedPh
deriving DecidableEq, Repr

/-- Modelled from the spec: the emission discipline of `CtlTask`
(implemented in the absent `Controller.cpp`).  §4.1: "Lifecycle signals, each
emitted exactly once per task instance, in this partial order: `started`
precedes any `progress`, which precedes exactly one of `success` or `errored`,
which precedes `finished`."  `taskStep` returns `none` for an emission that the
discipline forbids in the current phase. -/
def taskStep : TPhase → TaskEv → Option TPhase
  | .created, .started => some .running
  | .running, .progress _ => some .running
  | .running, .success => some .succeeded
  | .running, .errored => some .erroredPh
  | .succeeded, .finished => some .finishedPh
  | .erroredPh, .finished => some .finishedPh
  | _, _ => none

/-- Run a task from a phase over a list of emissions; `none` if any emission is
illegal. -/
def taskRun : TPhase → List TaskEv → Option TPhase
  | ph, [] => some ph
  | ph, e :: es =>
    match taskStep ph e with
    | none => none
    | some ph' => taskRun ph' es

theorem taskRun_finishedPh (l : List TaskEv)
    (h : taskRun .finishedPh l = some .finishedPh) : l = [] := by
  cases l with
  | nil => rfl
  | cons e es => cases e <;> simp [taskRun, taskStep] at h

theorem taskRun_succeeded (l : List TaskEv)
    (h : taskRun .succeeded l = some .finishedPh) : l = [.finished] := by
  cases l with
  | nil => simp [taskRun] at h
  | cons e es =>
    cases e <;> simp [taskRun, taskStep] at h
    rw [taskRun_finishedPh es h]

theorem taskRun_erroredPh (l : List TaskEv)
    (h : taskRun .erroredPh l = some .finishedPh) : l = [.finished] := by
  cases l with
  | nil => simp [taskRun] at h
  | cons e es =>
    cases e <;> simp [taskRun, taskStep] at h
    rw [taskRun_finishedPh es h]

theorem taskRun_running (l : List TaskEv)
    (h : taskRun .running l = some .finishedPh) :
    ∃ (ps : List TaskEv) (ok : Bool), (∀ e ∈ ps, ∃ x, e = TaskEv.progress x) ∧
      l = ps ++ [if ok then TaskEv.success else TaskEv.errored, TaskEv.finished] := by
  induction l with
  | nil => simp [taskRun] at h
  | cons e es ih =>
    cases e with
    | started => simp [taskRun, taskStep] at h
    | progress x =>
      simp only [taskRun, taskStep] at h
      obtain ⟨ps, ok, hall, rfl⟩ := ih h
      exact ⟨TaskEv.progress x :: ps, ok, by
        intro e he
        rcases List.mem_cons.1 he with rfl | he
        · exact ⟨x, rfl⟩
        · exact hall e he, rfl⟩
    | success =>
      simp only [taskRun, taskStep] at h
      rw [taskRun_succeeded es h]
      exact ⟨[], true, by simp, rfl⟩
    | errored =>
      simp only [taskRun, taskStep] at h
      rw [taskRun_erroredPh es h]
      exact ⟨[], false, by simp, rfl⟩
    | finished => simp [taskRun, taskStep] at h

/-- A completed task trace decomposes as `started`, then progress reports, then
exactly one terminal (`success` or `errored`), then `finished`. -/
theorem taskRun_created (l : List TaskEv)
    (h : taskRun .created l = some .finishedPh) :
    ∃ (ps : List TaskEv) (ok : Bool), (∀ e ∈ ps, ∃ x, e = TaskEv.progress x) ∧
      l = TaskEv.started ::
        (ps ++ [if ok then TaskEv.success else TaskEv.errored, TaskEv.finished]) := by
  cases l with
  | nil => simp [taskRun] at h
  | cons e es =>
    cases e <;> simp [taskRun, taskStep] at h
    obtain ⟨ps, ok, hall, rfl⟩ := taskRun_running es h
    exact ⟨ps, ok, hall, rfl⟩

theorem progress_counts (ps : List TaskEv)
    (hall : ∀ e ∈ ps, ∃ x, e = TaskEv.progress x) :
    ps.count TaskEv.started = 0 ∧ ps.count TaskEv.success = 0 ∧
    ps.count TaskEv.errored = 0 ∧ ps.count TaskEv.finished = 0 := by
  induction ps with
  | nil => simp
  | cons e es ih =>
    obtain ⟨x, rfl⟩ := hall e (List.mem_cons_self e es)
    have := ih (fun e he => hall e (List.mem_cons_of_mem _ he))
    simp [List.count_cons, this]

/-! ## Controller state machine, registry and signals (§4.2, §4.3, `Controller.h`) -/

/-- Synchronization state (§3): `Idle`, `Synchronizing`, `UpToDate`,
`Failed`.  `Controller.h` line 75 only forward-declares `struct StateMachine`;
the states are modelled from the spec. -/
inductive SyncState
  | Idle
  | Synchronizing
  | UpToDate
  | Failed
deriving DecidableEq, Repr

/-- The controller's observable signals (`Controller.h` lines 30-39). -/
inductive Signal
  | synchronizing
  | upToDate
  | synchFailure
deriving DecidableEq, Repr

/-- Configuration surface (§6): task parallelism and poll interval; the poll
interval defaults to `polltime_ms` (`Controller.h` line 28). -/
structure Cfg where
  nTasks : Nat
  polltime : Nat := polltime_ms
deriving DecidableEq, Repr

/-- Modelled from the spec: the controller's mutable state, all owned by the
single controller execution context (§5).  `tasks` is the registry key set
(`Controller.h` line 78, identities of live tasks); `pendingStart` holds tasks
whose `start()` is scheduled but has not yet run (§4.2); `stopped` records
identities that have received `stop()`; `localH` is the local index height;
`roundL`/`roundR` the current round's range; `srvmgrStarted` models whether
`srvmgr` (`Controller.h` line 72) is non-null; `retryAt` the scheduled retry
time; `nextId` the next fresh task identity. -/
structure CtlSt where
  st : SyncState
  tasks : List Nat
  pendingStart : List Nat
  stopped : List Nat
  localH : Nat
  roundL : Nat
  roundR : Nat
  srvmgrStarted : Bool
  retryAt : Option Nat
  nextId : Nat
deriving DecidableEq, Repr

/-- Controller startup state: `Idle` (§4.3), no tasks, `srvmgr` null. -/
def initSt (l0 : Nat) : CtlSt :=
  { st := .Idle, tasks := [], pendingStart := [], stopped := [],
    localH := l0, roundL := l0, roundR := l0, srvmgrStarted := false,
    retryAt := none, nextId := 0 }

/-- Modelled from the spec: `Controller::newTask` (declared `Controller.h`
lines 50-60, body in the absent `Controller.cpp`).  "the task is already
emplaced into the `tasks` map when this function returns" and "will be
auto-started the next time this thread enters the event loop": the fresh
identity is appended to the registry and to `pendingStart`, and is returned. -/
def newTask (s : CtlSt) : CtlSt × Nat :=
  ({ s with tasks := s.tasks ++ [s.nextId],
            pendingStart := s.pendingStart ++ [s.nextId],
            nextId := s.nextId + 1 }, s.nextId)

/-- Modelled from the spec: `Controller::add_DLHeaderTask` (declared
`Controller.h` line 80) registers one download task for one sub-range via
`newTask`. -/
def add_DLHeaderTask (s : CtlSt) (_lo _hi : Nat) : CtlSt := (newTask s).1

/-- One download task per sub-range produced by the work-splitting policy. -/
def spawnRound (s : CtlSt) (rs : List (Nat × Nat)) : CtlSt :=
  rs.foldl (fun acc p => add_DLHeaderTask acc p.1 p.2) s

/-- Modelled from the spec: `Controller::rmTask` (declared `Controller.h`
lines 61-62): "remove and stop a task (called after task finished() signal
fires)" — erases the registry entry. -/
def rmTask (s : CtlSt) (t : Nat) : CtlSt := { s with tasks := s.tasks.erase t }

/-- Modelled from the spec: `Controller::isTaskDeleted` (declared
`Controller.h` lines 63-64): "returns true iff t is not in the tasks list". -/
def isTaskDeleted (s : CtlSt) (t : Nat) : Bool := !(s.tasks.contains t)

/-- Events delivered into the controller's execution context: a poll tick
(with whether heights could be queried, the remote tip height, and the current
time), queued task signals, and an event-loop turn that runs pending
`start()`s. -/
inductive Ev
  | poll (heightsOk : Bool) (remote : Nat) (now : Nat)
  | taskSuccess (t : Nat)
  | taskErrored (t : Nat) (now : Nat)
  | taskFinished (t : Nat)
  | tick
deriving DecidableEq, Repr

/-- Modelled from the spec: the transition algorithm of §4.3 together with the
round bookkeeping of §4.4 and the registry contract of §4.2 (the bodies of
`Controller::process`, `Controller::genericTaskErrored` and the `StateMachine`
are in the absent `Controller.cpp`).
* poll, heights unqueryable → emit `synchFailure`, go `Failed`, `stop()` the
  in-flight tasks, schedule the retry one poll interval later (§4.3 step 4);
* poll, `local == remote`, no tasks in flight → emit `upToDate` and go
  `UpToDate` (first time enabling the serving collaborator, §6) only if the
  previous state was `Synchronizing`, otherwise do nothing (§4.3 step 2);
* poll, `local < remote`, no round in flight → transition to `Synchronizing`
  (emitting `synchronizing` only if not already there), record the round range
  and create one task per sub-range of the split (§4.3 step 3, §4.4);
* `success` → recorded by the task itself; nothing at the controller;
* `errored` → `genericTaskErrored`: emit `synchFailure`, go `Failed`,
  `stop()` the remaining in-flight tasks, schedule the retry one poll
  interval later (§4.3 step 4);
* `finished` → `rmTask`; when the last task of a healthy round finishes the
  round's range is committed, advancing the local height (§4.4: position
  tracking is by round, so a failed round never advances it);
* `tick` → the event loop runs the scheduled `start()`s. -/
def handle (cfg : Cfg) (s : CtlSt) : Ev → CtlSt × List Signal
  | .poll hok r now =>
    if hok = false then
      ({ s with st := .Failed, stopped := s.stopped ++ s.tasks,
                retryAt := some (now + cfg.polltime) }, [.synchFailure])
    else if r = s.localH ∧ s.tasks = [] then
      if s.st = .Synchronizing then
        ({ s with st := .UpToDate, srvmgrStarted := true }, [.upToDate])
      else (s, [])
    else if s.localH < r ∧ s.tasks = [] then
      (spawnRound { s with st := .Synchronizing, roundL := s.localH, roundR := r }
        (splitRange s.localH r cfg.nTasks),
       if s.st = .Synchronizing then [] else [.synchronizing])
    else (s, [])
  | .taskSuccess _ => (s, [])
  | .taskErrored _ now =>
    ({ s with st := .Failed, stopped := s.stopped ++ s.tasks,
              retryAt := some (now + cfg.polltime) }, [.synchFailure])
  | .taskFinished t =>
    if (rmTask s t).tasks = [] ∧ s.st = .Synchronizing then
      ({ rmTask s t with localH := s.roundR }, [])
    else (rmTask s t, [])
  | .tick => ({ s with pendingStart := [] }, [])

/-- Deliver a queue of events, collecting the emitted signals in order. -/
def runEv (cfg : Cfg) : CtlSt → List Ev → CtlSt × List Signal
  | _s, [] => (_s, [])
  | s, e :: es =>
    let p := handle cfg s e
    let q := runEv cfg p.1 es
    (q.1, p.2 ++ q.2)

/-- `okFrom armed sigs` checks the `upToDate`-discipline of a signal trace:
an `upToDate` may appear only when a `synchronizing` episode is armed, and it
disarms it — so `upToDate` never fires without a preceding `synchronizing`,
and never twice without an intervening one. -/
def okFrom : Bool → List Signal → Bool
  | _, [] => true
  | _, .synchronizing :: r => okFrom true r
  | b, .upToDate :: r => b && okFrom false r
  | b, .synchFailure :: r => okFrom b r

/-! ## Model lemmas -/

theorem add_DLHeaderTask_eq (s : CtlSt) (lo hi : Nat) :
    add_DLHeaderTask s lo hi =
      { s with tasks := s.tasks ++ [s.nextId],
               pendingStart := s.pendingStart ++ [s.nextId],
               nextId := s.nextId + 1 } := rfl

theorem spawnRound_eq (rs : List (Nat × Nat)) :
    ∀ s : CtlSt, spawnRound s rs =
      { s with tasks := s.tasks ++ List.range' s.nextId rs.length,
               pendingStart := s.pendingStart ++ List.range' s.nextId rs.length,
               nextId := s.nextId + rs.length } := by
  induction rs with
  | nil => intro s; simp [spawnRound]
  | cons p rs ih =>
    intro s
    have h1 : spawnRound s (p :: rs) = spawnRound (add_DLHeaderTask s p.1 p.2) rs := rfl
    rw [h1, ih]
    cases s
    simp only [add_DLHeaderTask_eq, List.length_cons, List.range'_succ,
               List.append_assoc, List.singleton_append, CtlSt.mk.injEq,
               and_true, true_and]
    omega

theorem mem_range'_bounds {s n k : Nat} (h : k ∈ List.range' s n) :
    s ≤ k ∧ k < s + n := by
  rw [List.mem_range'] at h
  obtain ⟨i, hi, rfl⟩ := h
  omega

/-- Registry membership is lost only through that task's `finished` signal:
`rmTask` (hence deregistration) is triggered by `finished` alone. -/
theorem handle_tasks_mono (cfg : Cfg) (s : CtlSt) (e : Ev) (t : Nat)
    (ht : t ∈ s.tasks) (hne : e ≠ Ev.taskFinished t) :
    t ∈ (handle cfg s e).1.tasks := by
  cases e with
  | poll hok r now =>
    simp only [handle]
    split
    · exact ht
    · split
      · split
        · exact ht
        · exact ht
      · split
        · rw [spawnRound_eq]
          exact List.mem_append_left _ ht
        · exact ht
  | taskSuccess u => exact ht
  | taskErrored u now => exact ht
  | taskFinished u =>
    have hut : t ≠ u := fun h => hne (by rw [h])
    simp only [handle]
    split
    · exact (List.mem_erase_of_ne hut).2 ht
    · exact (List.mem_erase_of_ne hut).2 ht
  | tick => exact ht

/-- The registry invariant: live identities are pairwise distinct and below
the identity counter. -/
def RegInv (s : CtlSt) : Prop :=
  s.tasks.Nodup ∧ ∀ t ∈ s.tasks, t < s.nextId

theorem RegInv_init (l0 : Nat) : RegInv (initSt l0) := by
  constructor <;> simp [initSt]

theorem RegInv_spawn (s : CtlSt) (rs : List (Nat × Nat)) (h : RegInv s) :
    RegInv (spawnRound s rs) := by
  obtain ⟨hnd, hbd⟩ := h
  rw [spawnRound_eq]
  constructor
  · rw [List.nodup_append]
    refine ⟨hnd, List.nodup_range' _ _, ?_⟩
    rw [List.disjoint_left]
    intro a ha hmem
    have := (mem_range'_bounds hmem).1
    have := hbd a ha
    omega
  · intro t htm
    rcases List.mem_append.1 htm with hl | hr
    · have := hbd t hl
      simp only []
      omega
    · have := (mem_range'_bounds hr).2
      simp only []
      omega

theorem RegInv_handle (cfg : Cfg) (s : CtlSt) (e : Ev) (h : RegInv s) :
    RegInv (handle cfg s e).1 := by
  obtain ⟨hnd, hbd⟩ := h
  cases e with
  | poll hok r now =>
    simp only [handle]
    split
    · exact ⟨hnd, hbd⟩
    · split
      · split
        · exact ⟨hnd, hbd⟩
        · exact ⟨hnd, hbd⟩
      · split
        · exact RegInv_spawn _ _ ⟨hnd, hbd⟩
        · exact ⟨hnd, hbd⟩
  | taskSuccess u => exact ⟨hnd, hbd⟩
  | taskErrored u now => exact ⟨hnd, hbd⟩
  | taskFinished u =>
    have hnd' : (s.tasks.erase u).Nodup := hnd.erase u
    have hbd' : ∀ t ∈ s.tasks.erase u, t < s.nextId :=
      fun t htm => hbd t (List.mem_of_mem_erase htm)
    simp only [handle]
    split
    · exact ⟨hnd', hbd'⟩
    · exact ⟨hnd', hbd'⟩
  | tick => exact ⟨hnd, hbd⟩

theorem RegInv_runEv (cfg : Cfg) (es : List Ev) :
    ∀ s : CtlSt, RegInv s → RegInv (runEv cfg s es).1 := by
  induction es with
  | nil => intro s h; exact h
  | cons e es ih =>
    intro s h
    exact ih _ (RegInv_handle cfg s e h)

theorem handle_srv (cfg : Cfg) (s : CtlSt) (e : Ev) :
    (handle cfg s e).1.srvmgrStarted = true →
    s.srvmgrStarted = true ∨ Signal.upToDate ∈ (handle cfg s e).2 := by
  cases e with
  | poll hok r now =>
    simp only [handle]
    split
    · exact fun h => Or.inl h
    · split
      · split
        · exact fun _ => Or.inr (by simp)
        · exact fun h => Or.inl h
      · split
        · intro h
          rw [spawnRound_eq] at h
          exact Or.inl h
        · exact fun h => Or.inl h
  | taskSuccess u => exact fun h => Or.inl h
  | taskErrored u now => exact fun h => Or.inl h
  | taskFinished u =>
    simp only [handle]
    split
    · exact fun h => Or.inl h
    · exact fun h => Or.inl h
  | tick => exact fun h => Or.inl h

theorem runEv_srv (cfg : Cfg) (es : List Ev) :
    ∀ s : CtlSt, (runEv cfg s es).1.srvmgrStarted = true →
      s.srvmgrStarted = true ∨ Signal.upToDate ∈ (runEv cfg s es).2 := by
  induction es with
  | nil => intro s h; exact Or.inl h
  | cons e es ih =>
    intro s h
    have h' : (runEv cfg (handle cfg s e).1 es).1.srvmgrStarted = true := h
    have hm : (runEv cfg s (e :: es)).2 =
        (handle cfg s e).2 ++ (runEv cfg (handle cfg s e).1 es).2 := rfl
    rw [hm]
    rcases ih _ h' with h1 | h2
    · rcases handle_srv cfg s e h1 with h3 | h4
      · exact Or.inl h3
      · exact Or.inr (List.mem_append.2 (Or.inl h4))
    · exact Or.inr (List.mem_append.2 (Or.inr h2))

/-- The `upToDate` discipline holds along every run, given that whenever the
state is `Synchronizing` an episode is armed. -/
theorem okFrom_runEv (cfg : Cfg) (es : List Ev) :
    ∀ (s : CtlSt) (b : Bool), (s.st = SyncState.Synchronizing → b = true) →
      okFrom b (runEv cfg s es).2 = true := by
  induction es with
  | nil => intro s b _; rfl
  | cons e es ih =>
    intro s b hb
    have hm : (runEv cfg s (e :: es)).2 =
        (handle cfg s e).2 ++ (runEv cfg (handle cfg s e).1 es).2 := rfl
    rw [hm]
    cases e with
    | poll hok r now =>
      simp only [handle]
      split
      · simp only [List.cons_append, List.nil_append, okFrom]
        exact ih _ b (by intro hst; simp at hst)
      · split
        · split
          case isTrue h2 h3 hsync =>
            simp only [List.cons_append, List.nil_append, okFrom, hb hsync,
                       Bool.true_and]
            exact ih _ false (by intro hst; simp at hst)
          case isFalse h2 h3 hsync =>
            simp only [List.nil_append]
            exact ih _ b (fun hst => hb hst)
        · split
          case isTrue h2 h3 h4 =>
            split
            case isTrue hsync =>
              simp only [List.nil_append]
              refine ih _ b (fun _ => hb hsync)
            case isFalse hsync =>
              simp only [List.cons_append, List.nil_append, okFrom]
              exact ih _ true (fun _ => rfl)
          case isFalse h2 h3 h4 =>
            simp only [List.nil_append]
            exact ih _ b (fun hst => hb hst)
    | taskSuccess u =>
      simp only [handle, List.nil_append]
      exact ih _ b (fun hst => hb hst)
    | taskErrored u now =>
      simp only [handle, List.cons_append, List.nil_append, okFrom]
      exact ih _ b (by intro hst; simp at hst)
    | taskFinished u =>
      simp only [handle]
      split
      · simp only [List.nil_append]
        exact ih _ b (fun hst => hb hst)
      · simp only [List.nil_append]
        exact ih _ b (fun hst => hb hst)
    | tick =>
      simp only [handle, List.nil_append]
      exact ih _ b (fun hst => hb hst)

/-! ## Claims -/

/-- C1: For every missing height range `[L,R)` with `L < R` and every
configured parallelism `N ≥ 1`, the work-splitting policy (`add_DLHeaderTask`
over the round) produces sub-ranges that are contiguous, pairwise disjoint,
gap-free, cover `[L,R)` exactly once (their concatenation is precisely the
height list `L..R-1`), are of near-equal size with the remainder distributed
to the earliest sub-ranges (`specSizes`), and the number of tasks created
equals `min N (R-L)` — one task per non-empty sub-range, never more tasks
than units of work (also at the controller: a spawning poll registers exactly
`min N (R-L)` tasks). -/
theorem C1_work_splitting (L R N : Nat) (hN : 1 ≤ N) :
    covered (splitRange L R N) = List.range' L (R - L) ∧
    (splitRange L R N).length = min N (R - L) ∧
    (splitRange L R N).map (fun p => p.2 - p.1) = specSizes (R - L) N ∧
    List.Chain' (fun p q : Nat × Nat => p.2 = q.1) (splitRange L R N) ∧
    (∀ p ∈ splitRange L R N, p.1 < p.2) ∧
    (∀ (cfg : Cfg) (s : CtlSt) (r now : Nat), cfg.nTasks = N → s.tasks = [] →
      s.localH < r →
      (handle cfg s (Ev.poll true r now)).1.tasks.length = min N (r - s.localH)) := by
  obtain ⟨n, rfl⟩ : ∃ n, N = n + 1 := ⟨N - 1, by omega⟩
  refine ⟨splitRange_covered n L R, splitRange_length (n+1) L R,
          splitRange_sizes (n+1) L R, splitRange_chain (n+1) L R,
          splitRange_pos (n+1) L R, ?_⟩
  intro cfg s r now hcfg htasks hlt
  simp only [handle]
  rw [if_neg (by simp), if_neg (by intro h; omega),
      if_pos ⟨hlt, htasks⟩, spawnRound_eq]
  simp [htasks, hcfg, splitRange_length]

/-- Witness for C1 at the spec's own scenario: range `[100,103)`,
parallelism 4. -/
theorem C1_work_splitting_witness :
    1 ≤ 4 ∧
    covered (splitRange 100 103 4) = List.range' 100 (103 - 100) ∧
    (splitRange 100 103 4).length = min 4 (103 - 100) :=
  ⟨by decide, (C1_work_splitting 100 103 4 (by decide)).1,
   (C1_work_splitting 100 103 4 (by decide)).2.1⟩

/-- C2: in every signal sequence the controller can emit from startup,
`upToDate` is never emitted twice without an intervening `synchronizing` and
only ever after a `synchronizing` has begun an episode (`okFrom false`), and a
poll that finds `local == remote` with no in-flight tasks and no preceding
`Synchronizing` state emits nothing. -/
theorem C2_upToDate_discipline :
    (∀ (cfg : Cfg) (l0 : Nat) (es : List Ev),
        okFrom false (runEv cfg (initSt l0) es).2 = true) ∧
    (∀ (cfg : Cfg) (s : CtlSt) (r now : Nat),
        s.st ≠ SyncState.Synchronizing → r = s.localH → s.tasks = [] →
        (handle cfg s (Ev.poll true r now)).2 = []) := by
  constructor
  · intro cfg l0 es
    exact okFrom_runEv cfg es (initSt l0) false (by intro h; simp [initSt] at h)
  · intro cfg s r now hst hr htk
    simp only [handle]
    rw [if_neg (by simp), if_pos ⟨hr, htk⟩, if_neg hst]

/-- Witness for C2: the spec's scenario — first poll with local = remote =
100 emits nothing (and a short run respects the discipline). -/
theorem C2_upToDate_discipline_witness :
    okFrom false (runEv ⟨4, 5000⟩ (initSt 100) [Ev.poll true 100 0]).2 = true ∧
    ((initSt 100).st ≠ SyncState.Synchronizing ∧ (100 : Nat) = (initSt 100).localH ∧
     (initSt 100).tasks = [] ∧
     (handle ⟨4, 5000⟩ (initSt 100) (Ev.poll true 100 0)).2 = []) :=
  ⟨C2_upToDate_discipline.1 ⟨4, 5000⟩ 100 [Ev.poll true 100 0],
   by decide, by decide, by decide,
   C2_upToDate_discipline.2 ⟨4, 5000⟩ (initSt 100) 100 0 (by decide) (by decide)
     (by decide)⟩

/-- C3: every complete task trace decomposes as `started`, then only
`progress` reports, then exactly one of `success`/`errored`, then `finished`,
with `started`, the terminal and `finished` each emitted exactly once; and at
the controller, a task's `finished` signal is the unique trigger for
deregistration. -/
theorem C3_task_lifecycle :
    (∀ l : List TaskEv, taskRun TPhase.created l = some TPhase.finishedPh →
      ∃ (ps : List TaskEv) (ok : Bool),
        (∀ e ∈ ps, ∃ x, e = TaskEv.progress x) ∧
        l = TaskEv.started ::
          (ps ++ [if ok then TaskEv.success else TaskEv.errored, TaskEv.finished]) ∧
        l.count TaskEv.started = 1 ∧
        l.count TaskEv.success + l.count TaskEv.errored = 1 ∧
        l.count TaskEv.finished = 1) ∧
    (∀ (cfg : Cfg) (s : CtlSt) (e : Ev) (t : Nat),
        t ∈ s.tasks → t ∉ (handle cfg s e).1.tasks → e = Ev.taskFinished t) := by
  constructor
  · intro l h
    obtain ⟨ps, ok, hall, rfl⟩ := taskRun_created l h
    obtain ⟨c1, c2, c3, c4⟩ := progress_counts ps hall
    refine ⟨ps, ok, hall, rfl, ?_, ?_, ?_⟩
    · cases ok <;>
        simp [List.count_cons, List.count_append, c1, c2, c3, c4]
    · cases ok <;>
        simp [List.count_cons, List.count_append, c1, c2, c3, c4]
    · cases ok <;>
        simp [List.count_cons, List.count_append, c1, c2, c3, c4]
  · intro cfg s e t ht hnot
    by_cases he : e = Ev.taskFinished t
    · exact he
    · exact absurd (handle_tasks_mono cfg s e t ht he) hnot

/-- Witness for C3: the concrete trace `started, progress, success, finished`
and a concrete deregistration. -/
theorem C3_task_lifecycle_witness :
    (taskRun TPhase.created
        [TaskEv.started, TaskEv.progress 0, TaskEv.success, TaskEv.finished] =
      some TPhase.finishedPh ∧
     ∃ (ps : List TaskEv) (ok : Bool),
        (∀ e ∈ ps, ∃ x, e = TaskEv.progress x) ∧
        [TaskEv.started, TaskEv.progress 0, TaskEv.success, TaskEv.finished] =
          TaskEv.started ::
            (ps ++ [if ok then TaskEv.success else TaskEv.errored, TaskEv.finished]) ∧
        List.count TaskEv.started
          [TaskEv.started, TaskEv.progress 0, TaskEv.success, TaskEv.finished] = 1 ∧
        List.count TaskEv.success
            [TaskEv.started, TaskEv.progress 0, TaskEv.success, TaskEv.finished] +
          List.count TaskEv.errored
            [TaskEv.started, TaskEv.progress 0, TaskEv.success, TaskEv.finished] = 1 ∧
        List.count TaskEv.finished
          [TaskEv.started, TaskEv.progress 0, TaskEv.success, TaskEv.finished] = 1) ∧
    ((7 : Nat) ∈ ((⟨.Synchronizing, [7], [], [], 0, 0, 3, false, none, 8⟩ :
        CtlSt)).tasks ∧
     (7 : Nat) ∉ (handle ⟨4, 5000⟩
        (⟨.Synchronizing, [7], [], [], 0, 0, 3, false, none, 8⟩ : CtlSt)
        (Ev.taskFinished 7)).1.tasks ∧
     Ev.taskFinished 7 = Ev.taskFinished 7) :=
  ⟨⟨by decide, C3_task_lifecycle.1 _ (by decide)⟩,
   by decide, by decide,
   C3_task_lifecycle.2 ⟨4, 5000⟩
     (⟨.Synchronizing, [7], [], [], 0, 0, 3, false, none, 8⟩ : CtlSt)
     (Ev.taskFinished 7) 7 (by decide) (by decide)⟩

/-- C4: `UpToDate` is entered only by a direct transition from
`Synchronizing`, and only on a successful poll observing remote height equal
to the local height with zero tasks in flight; no other state or event
transitions into `UpToDate`. -/
theorem C4_UpToDate_only_from_Synchronizing (cfg : Cfg) (s : CtlSt) (e : Ev)
    (hpre : s.st ≠ SyncState.UpToDate)
    (hpost : (handle cfg s e).1.st = SyncState.UpToDate) :
    s.st = SyncState.Synchronizing ∧ s.tasks = [] ∧
    ∃ r now, e = Ev.poll true r now ∧ r = s.localH := by
  cases e with
  | poll hok r now =>
    simp only [handle] at hpost
    split at hpost
    · simp at hpost
    · case isFalse hne =>
      have hok' : hok = true := by
        cases hok
        · exact absurd rfl hne
        · rfl
      subst hok'
      split at hpost
      · split at hpost
        case isTrue h2 hsync => exact ⟨hsync, h2.2, r, now, rfl, h2.1⟩
        case isFalse => exact absurd hpost hpre
      · split at hpost
        · rw [spawnRound_eq] at hpost
          simp at hpost
        · exact absurd hpost hpre
  | taskSuccess u => exact absurd hpost hpre
  | taskErrored u now =>
    simp only [handle] at hpost
    simp at hpost
  | taskFinished u =>
    simp only [handle] at hpost
    split at hpost
    · exact absurd hpost hpre
    · exact absurd hpost hpre
  | tick => exact absurd hpost hpre

/-- Witness for C4: a synchronizing state with no in-flight tasks observes
remote = local = 5 and enters `UpToDate`. -/
theorem C4_UpToDate_only_from_Synchronizing_witness :
    (((⟨.Synchronizing, [], [], [], 5, 0, 5, false, none, 3⟩ : CtlSt)).st ≠
        SyncState.UpToDate ∧
     (handle ⟨4, 5000⟩ (⟨.Synchronizing, [], [], [], 5, 0, 5, false, none, 3⟩ :
        CtlSt) (Ev.poll true 5 0)).1.st = SyncState.UpToDate) ∧
    (((⟨.Synchronizing, [], [], [], 5, 0, 5, false, none, 3⟩ : CtlSt)).st =
        SyncState.Synchronizing ∧
     ((⟨.Synchronizing, [], [], [], 5, 0, 5, false, none, 3⟩ : CtlSt)).tasks = [] ∧
     ∃ r now, Ev.poll true 5 0 = Ev.poll true r now ∧
       r = ((⟨.Synchronizing, [], [], [], 5, 0, 5, false, none, 3⟩ :
         CtlSt)).localH) :=
  ⟨⟨by decide, by decide⟩,
   C4_UpToDate_only_from_Synchronizing ⟨4, 5000⟩ _ (Ev.poll true 5 0)
     (by decide) (by decide)⟩

/-- C5: when a task of a round ends in `errored`, or heights cannot be
queried (a poll whose height query fails), the controller emits
`synchFailure`, transitions to `Failed`, `stop()`s every remaining in-flight
task of the round, schedules the retry exactly one configured poll interval
later, and does not advance the local position (neither then nor while the
failed round drains), so the retry re-attempts the same range
`[localH, remote)` from scratch. -/
theorem C5_error_handling (cfg : Cfg) (s : CtlSt) (t now : Nat)
    (_hround : s.st = SyncState.Synchronizing) :
    (handle cfg s (Ev.taskErrored t now)).2 = [Signal.synchFailure] ∧
    (handle cfg s (Ev.taskErrored t now)).1.st = SyncState.Failed ∧
    (∀ u ∈ s.tasks, u ∈ (handle cfg s (Ev.taskErrored t now)).1.stopped) ∧
    (handle cfg s (Ev.taskErrored t now)).1.retryAt = some (now + cfg.polltime) ∧
    (handle cfg s (Ev.taskErrored t now)).1.localH = s.localH ∧
    (handle cfg s (Ev.taskErrored t now)).1.roundL = s.roundL ∧
    (handle cfg s (Ev.taskErrored t now)).1.roundR = s.roundR ∧
    (∀ (r nowp : Nat),
        (handle cfg s (Ev.poll false r nowp)).2 = [Signal.synchFailure] ∧
        (handle cfg s (Ev.poll false r nowp)).1.st = SyncState.Failed ∧
        (∀ u ∈ s.tasks, u ∈ (handle cfg s (Ev.poll false r nowp)).1.stopped) ∧
        (handle cfg s (Ev.poll false r nowp)).1.retryAt =
          some (nowp + cfg.polltime) ∧
        (handle cfg s (Ev.poll false r nowp)).1.localH = s.localH ∧
        (handle cfg s (Ev.poll false r nowp)).1.roundL = s.roundL ∧
        (handle cfg s (Ev.poll false r nowp)).1.roundR = s.roundR) ∧
    (∀ (s' : CtlSt) (u : Nat), s'.st = SyncState.Failed →
        (handle cfg s' (Ev.taskFinished u)).1.localH = s'.localH) ∧
    (∀ (s'' : CtlSt) (r now2 : Nat), s''.st = SyncState.Failed →
        s''.tasks = [] → s''.localH < r →
        (handle cfg s'' (Ev.poll true r now2)).1.roundL = s''.localH ∧
        (handle cfg s'' (Ev.poll true r now2)).1.roundR = r ∧
        (handle cfg s'' (Ev.poll true r now2)).2 = [Signal.synchronizing]) := by
  refine ⟨rfl, rfl, ?_, rfl, rfl, rfl, rfl, ?_, ?_, ?_⟩
  · intro u hu
    exact List.mem_append.2 (Or.inr hu)
  · intro r nowp
    refine ⟨rfl, rfl, ?_, rfl, rfl, rfl, rfl⟩
    intro u hu
    exact List.mem_append.2 (Or.inr hu)
  · intro s' u hfail
    simp only [handle]
    split
    case isTrue h =>
      rw [hfail] at h
      exact absurd h.2 (by simp)
    case isFalse h => rfl
  · intro s'' r now2 hfail htasks hlt
    simp only [handle]
    rw [if_neg (by simp), if_neg (by intro h; omega), if_pos ⟨hlt, htasks⟩,
        if_neg (by rw [hfail]; simp), spawnRound_eq]
    exact ⟨rfl, rfl, rfl⟩

/-- Witness for C5: a round of two tasks aborts on a task error at time 42,
and aborts the same way on an unqueryable-heights poll at time 42. -/
theorem C5_error_handling_witness :
    ((⟨.Synchronizing, [3, 4], [], [], 10, 10, 20, false, none, 5⟩ :
        CtlSt)).st = SyncState.Synchronizing ∧
    (handle ⟨2, 5000⟩
      (⟨.Synchronizing, [3, 4], [], [], 10, 10, 20, false, none, 5⟩ : CtlSt)
      (Ev.taskErrored 3 42)).2 = [Signal.synchFailure] ∧
    (handle ⟨2, 5000⟩
      (⟨.Synchronizing, [3, 4], [], [], 10, 10, 20, false, none, 5⟩ : CtlSt)
      (Ev.taskErrored 3 42)).1.retryAt = some (42 + 5000) ∧
    (handle ⟨2, 5000⟩
      (⟨.Synchronizing, [3, 4], [], [], 10, 10, 20, false, none, 5⟩ : CtlSt)
      (Ev.poll false 20 42)).2 = [Signal.synchFailure] ∧
    (handle ⟨2, 5000⟩
      (⟨.Synchronizing, [3, 4], [], [], 10, 10, 20, false, none, 5⟩ : CtlSt)
      (Ev.poll false 20 42)).1.st = SyncState.Failed :=
  ⟨by decide,
   (C5_error_handling ⟨2, 5000⟩
     (⟨.Synchronizing, [3, 4], [], [], 10, 10, 20, false, none, 5⟩ : CtlSt)
     3 42 (by decide)).1,
   (C5_error_handling ⟨2, 5000⟩
     (⟨.Synchronizing, [3, 4], [], [], 10, 10, 20, false, none, 5⟩ : CtlSt)
     3 42 (by decide)).2.2.2.1,
   ((C5_error_handling ⟨2, 5000⟩
     (⟨.Synchronizing, [3, 4], [], [], 10, 10, 20, false, none, 5⟩ : CtlSt)
     3 42 (by decide)).2.2.2.2.2.2.2.1 20 42).1,
   ((C5_error_handling ⟨2, 5000⟩
     (⟨.Synchronizing, [3, 4], [], [], 10, 10, 20, false, none, 5⟩ : CtlSt)
     3 42 (by decide)).2.2.2.2.2.2.2.1 20 42).2.1⟩

/-- C6: at every controller-context observation point (any state reachable
from startup), the registry holds pairwise-distinct identities,
`isTaskDeleted t` is true iff `t` is absent, a task's identity is absent at
the observation following its `finished` signal, and only that task's
`finished` signal can remove it. -/
theorem C6_registry (cfg : Cfg) (l0 : Nat) (es : List Ev) (t : Nat) :
    (runEv cfg (initSt l0) es).1.tasks.Nodup ∧
    (isTaskDeleted (runEv cfg (initSt l0) es).1 t = true ↔
      t ∉ (runEv cfg (initSt l0) es).1.tasks) ∧
    t ∉ (handle cfg (runEv cfg (initSt l0) es).1 (Ev.taskFinished t)).1.tasks ∧
    (∀ e : Ev, t ∈ (runEv cfg (initSt l0) es).1.tasks →
      t ∉ (handle cfg (runEv cfg (initSt l0) es).1 e).1.tasks →
      e = Ev.taskFinished t) := by
  obtain ⟨hnd, hbd⟩ := RegInv_runEv cfg es (initSt l0) (RegInv_init l0)
  refine ⟨hnd, by simp [isTaskDeleted], ?_, ?_⟩
  · simp only [handle]
    split
    · exact hnd.not_mem_erase
    · exact hnd.not_mem_erase
  · intro e ht hnot
    by_cases he : e = Ev.taskFinished t
    · exact he
    · exact absurd (handle_tasks_mono cfg _ e t ht he) hnot

/-- Witness for C6 at a concrete reachable state: after spawning a round of
one task and finishing it. -/
theorem C6_registry_witness :
    (runEv ⟨1, 5000⟩ (initSt 0) [Ev.poll true 1 0]).1.tasks.Nodup ∧
    (isTaskDeleted (runEv ⟨1, 5000⟩ (initSt 0) [Ev.poll true 1 0]).1 0 = true ↔
      (0 : Nat) ∉ (runEv ⟨1, 5000⟩ (initSt 0) [Ev.poll true 1 0]).1.tasks) ∧
    (0 : Nat) ∉ (handle ⟨1, 5000⟩ (runEv ⟨1, 5000⟩ (initSt 0) [Ev.poll true 1 0]).1
      (Ev.taskFinished 0)).1.tasks :=
  ⟨(C6_registry ⟨1, 5000⟩ 0 [Ev.poll true 1 0] 0).1,
   (C6_registry ⟨1, 5000⟩ 0 [Ev.poll true 1 0] 0).2.1,
   (C6_registry ⟨1, 5000⟩ 0 [Ev.poll true 1 0] 0).2.2.1⟩

/-- C7: when `newTask` returns, the fresh task is already emplaced in the
registry keyed by its identity (so `isTaskDeleted` on it is false), its
`start()` has not yet run but is scheduled for the next event-loop turn
(it sits in `pendingStart`, which only the `tick` event drains — never the
creating call itself), and the returned reference stays in the registry under
every event except its own `finished`. -/
theorem C7_newTask (s : CtlSt) :
    (newTask s).1.tasks = s.tasks ++ [(newTask s).2] ∧
    (newTask s).2 ∈ (newTask s).1.tasks ∧
    isTaskDeleted (newTask s).1 (newTask s).2 = false ∧
    (newTask s).2 ∈ (newTask s).1.pendingStart ∧
    (∀ cfg : Cfg, (handle cfg (newTask s).1 Ev.tick).1.pendingStart = []) ∧
    (∀ (cfg : Cfg) (e : Ev),
      (newTask s).2 ∈ (handle cfg (newTask s).1 e).1.tasks ∨
        e = Ev.taskFinished (newTask s).2) := by
  refine ⟨rfl, ?_, ?_, ?_, fun _ => rfl, ?_⟩
  · simp [newTask]
  · simp [isTaskDeleted, newTask]
  · simp [newTask]
  · intro cfg e
    by_cases he : e = Ev.taskFinished (newTask s).2
    · exact Or.inr he
    · exact Or.inl (handle_tasks_mono cfg _ e _ (by simp [newTask]) he)

/-- Witness for C7 at a concrete state. -/
theorem C7_newTask_witness :
    (newTask (initSt 9)).1.tasks = (initSt 9).tasks ++ [(newTask (initSt 9)).2] ∧
    (newTask (initSt 9)).2 ∈ (newTask (initSt 9)).1.tasks ∧
    isTaskDeleted (newTask (initSt 9)).1 (newTask (initSt 9)).2 = false :=
  ⟨(C7_newTask (initSt 9)).1, (C7_newTask (initSt 9)).2.1,
   (C7_newTask (initSt 9)).2.2.1⟩

/-- C8: `rmTask` is idempotent — on an absent identity it is a no-op leaving
the registry (indeed the whole controller state) unchanged, and applying it
twice equals applying it once; on a present identity it erases exactly that
entry, leaving every other entry's membership unchanged. -/
theorem C8_rmTask_idempotent (s : CtlSt) (t : Nat) :
    (t ∉ s.tasks → rmTask s t = s) ∧
    (s.tasks.Nodup → rmTask (rmTask s t) t = rmTask s t) ∧
    (t ∈ s.tasks → s.tasks.Nodup →
      t ∉ (rmTask s t).tasks ∧
      (∀ u : Nat, u ≠ t → (u ∈ (rmTask s t).tasks ↔ u ∈ s.tasks)) ∧
      (rmTask s t).st = s.st ∧ (rmTask s t).pendingStart = s.pendingStart ∧
      (rmTask s t).localH = s.localH ∧ (rmTask s t).nextId = s.nextId) := by
  refine ⟨?_, ?_, ?_⟩
  · intro h
    unfold rmTask
    rw [List.erase_of_not_mem h]
  · intro hnd
    unfold rmTask
    rw [List.erase_of_not_mem (hnd.not_mem_erase)]
  · intro _ hnd
    exact ⟨hnd.not_mem_erase, fun u hu => List.mem_erase_of_ne hu,
           rfl, rfl, rfl, rfl⟩

/-- Witness for C8: identity 5 absent from, and identity 3 present in, a
two-task registry. -/
theorem C8_rmTask_idempotent_witness :
    ((5 : Nat) ∉ ((⟨.Synchronizing, [3, 4], [], [], 0, 0, 2, false, none,
        5⟩ : CtlSt)).tasks ∧
     rmTask (⟨.Synchronizing, [3, 4], [], [], 0, 0, 2, false, none, 5⟩ : CtlSt) 5 =
       (⟨.Synchronizing, [3, 4], [], [], 0, 0, 2, false, none, 5⟩ : CtlSt)) ∧
    ((3 : Nat) ∈ ((⟨.Synchronizing, [3, 4], [], [], 0, 0, 2, false, none,
        5⟩ : CtlSt)).tasks ∧
     (3 : Nat) ∉ (rmTask (⟨.Synchronizing, [3, 4], [], [], 0, 0, 2, false, none,
        5⟩ : CtlSt) 3).tasks) :=
  ⟨⟨by decide,
    (C8_rmTask_idempotent
      (⟨.Synchronizing, [3, 4], [], [], 0, 0, 2, false, none, 5⟩ : CtlSt) 5).1
      (by decide)⟩,
   ⟨by decide,
    ((C8_rmTask_idempotent
      (⟨.Synchronizing, [3, 4], [], [], 0, 0, 2, false, none, 5⟩ : CtlSt) 3).2.2
      (by decide) (by decide)).1⟩⟩

/-- C9: the serving collaborator (`srvmgr`, null at startup) is enabled only
after the controller first reaches `UpToDate`: in every run from startup, if
it is enabled then an `upToDate` transition has occurred in that run. -/
theorem C9_srvmgr (cfg : Cfg) (l0 : Nat) (es : List Ev) :
    (initSt l0).srvmgrStarted = false ∧
    ((runEv cfg (initSt l0) es).1.srvmgrStarted = true →
      Signal.upToDate ∈ (runEv cfg (initSt l0) es).2) := by
  refine ⟨rfl, ?_⟩
  intro h
  rcases runEv_srv cfg es (initSt l0) h with h1 | h2
  · simp [initSt] at h1
  · exact h2

/-- Witness for C9: a full catch-up run (spawn, finish, re-check) enables the
serving collaborator, and indeed `upToDate` was emitted. -/
theorem C9_srvmgr_witness :
    (runEv ⟨1, 5000⟩ (initSt 0)
        [Ev.poll true 1 0, Ev.taskFinished 0, Ev.poll true 1 5]).1.srvmgrStarted =
      true ∧
    Signal.upToDate ∈ (runEv ⟨1, 5000⟩ (initSt 0)
        [Ev.poll true 1 0, Ev.taskFinished 0, Ev.poll true 1 5]).2 :=
  ⟨by decide,
   (C9_srvmgr ⟨1, 5000⟩ 0
     [Ev.poll true 1 0, Ev.taskFinished 0, Ev.poll true 1 5]).2 (by decide)⟩

/-- C10: from `Controller.h` line 28, the poll interval `polltime_ms` is
initialized to `5 * 1000` milliseconds, i.e. 5 seconds, and it is the default
poll interval of the configuration surface (hence the default retry backoff
after a failed round). -/
theorem C10_default_polltime :
    polltime_ms = 5 * 1000 ∧ polltime_ms = 5000 ∧
    ∀ n : Nat, ({ nTasks := n } : Cfg).polltime = 5000 :=
  ⟨rfl, rfl, fun _ => rfl⟩

end Fulcrum
